import Mathlib

/-!
Shallow embedding of the Go package emperorcow/orderedmap (src/orderedmap.go).

The Go `OrderedMap` holds a `map[string]interface{}` together with a
`[]string` order slice.  We model the Go map as an association list with
unique keys (Go maps never hold a key twice; all maps here originate from
`make(map[string]interface{})`, i.e. the empty list) and the order slice as
a `List String`.  Values of type `interface{}` become a type parameter.

Go run-time panics (out-of-range slice indexing) are modelled by `Option`:
a result of `none` means the corresponding Go code panics.  Functions that
return a Go `error` return `Except String`.
-/

/-- Model of Go map lookup `data, ok := m.data[key]`: `none` plays the role
of `ok = false` (with `data` the zero value). -/
def mapLookup {α : Type} (d : List (String × α)) (k : String) : Option α :=
  match d with
  | [] => none
  | (k₁, v) :: rest => if k₁ = k then some v else mapLookup rest k

/-- Model of Go map assignment `m.data[key] = value`: overwrite the existing
entry if the key is present, otherwise add a new entry. -/
def mapInsert {α : Type} (d : List (String × α)) (k : String) (v : α) : List (String × α) :=
  match d with
  | [] => [(k, v)]
  | (k₁, v₁) :: rest => if k₁ = k then (k, v) :: rest else (k₁, v₁) :: mapInsert rest k v

/-- Model of Go `delete(m.data, key)`. -/
def mapDelete {α : Type} (d : List (String × α)) (k : String) : List (String × α) :=
  d.filter (fun p => p.1 ≠ k)

/-- Keys of the modelled Go map, in association-list order. -/
def dataKeys {α : Type} (d : List (String × α)) : List String :=
  d.map Prod.fst

/-- Byte-wise (here: character-wise) lexicographic comparison used by Go
`sort.Strings`. -/
def charListLe : List Char → List Char → Bool
  | [], _ => true
  | _ :: _, [] => false
  | a :: as, b :: bs => if a < b then true else if b < a then false else charListLe as bs

/-- Lexicographic order on strings, as sorted by Go `sort.Strings`. -/
def strLe (a b : String) : Prop := charListLe a.data b.data = true

instance : DecidableRel strLe := fun _ _ => instDecidableEqBool _ _

/-- Model of Go `sort.Strings`: sort a string slice ascending. -/
def sortStrings (l : List String) : List String :=
  List.insertionSort strLe l

/-- Translation of `compareOrder` (src/orderedmap.go lines 238-261): two
orders hold the same data iff they have the same length and their sorted
copies agree index-wise, i.e. the sorted copies are equal. -/
def compareOrder (f s : List String) : Bool :=
  if f.length ≠ s.length then false
  else decide (sortStrings f = sortStrings s)

/-- Model of Go `copy(dst, src)` for string slices: the resulting contents
of `dst` are the first `min(len dst, len src)` elements of `src` followed by
the untouched tail of `dst`. -/
def goCopy (dst src : List String) : List String :=
  src.take dst.length ++ dst.drop src.length

/-- Translation of the loop body of `IndexOf` (src/orderedmap.go lines
129-139): scan the whole order, remembering the index of every match; the
accumulator starts at -1. -/
def indexOfLoop (k : String) : List String → Nat → Int → Int
  | [], _, acc => acc
  | x :: xs, i, acc => indexOfLoop k xs (i + 1) (if x = k then (i : Int) else acc)

/-- The `OrderedMap` structure (src/orderedmap.go lines 30-34), minus the
lock, which only serializes operations and has no sequential meaning. -/
structure OrderedMap (α : Type) where
  data : List (String × α)
  order : List String
deriving DecidableEq

/-- Translation of `New` (src/orderedmap.go lines 37-42). -/
def OrderedMap.New (α : Type) : OrderedMap α :=
  { data := [], order := [] }

/-- Translation of `Add` (src/orderedmap.go lines 45-50): store the value
under the key and unconditionally append the key to the order. -/
def OrderedMap.Add {α : Type} (m : OrderedMap α) (k : String) (v : α) : OrderedMap α :=
  { data := mapInsert m.data k v, order := m.order ++ [k] }

/-- Translation of `Insert` (src/orderedmap.go lines 55-75).  The guards
compare `position` against `len(m.data)` and 0, in that source order.  The
outer `Option` models the slice expressions `m.order[:position]` and
`m.order[position:]`, which Go can only evaluate when
`position ≤ len(m.order)`; on the maps reachable in the package this bound
always holds once the guards pass. -/
def OrderedMap.Insert {α : Type} (m : OrderedMap α) (position : Int) (k : String) (v : α) :
    Option (Except String (OrderedMap α)) :=
  if position ≥ (m.data.length : Int) then
    some (Except.error "Position is larger than the current map size.")
  else if position < 0 then
    some (Except.error "Position is less than 0.")
  else if position.toNat ≤ m.order.length then
    some (Except.ok
      { data := mapInsert m.data k v
        order := m.order.take position.toNat ++ k :: m.order.drop position.toNat })
  else none

/-- Translation of `GetKey` (src/orderedmap.go lines 88-93): the Go pair
`(data, ok)` is collapsed into an `Option`. -/
def OrderedMap.GetKey {α : Type} (m : OrderedMap α) (k : String) : Option α :=
  mapLookup m.data k

/-- Translation of `GetIndex` (src/orderedmap.go lines 98-104).  The outer
`Option` models the unguarded slice indexing `m.order[index]`: `none` means
the Go code panics.  The inner triple is the Go result
`(key, data, ok)`, with `data` an `Option` standing for a possibly-nil
`interface{}`. -/
def OrderedMap.GetIndex {α : Type} (m : OrderedMap α) (index : Int) :
    Option (String × Option α × Bool) :=
  if 0 ≤ index ∧ index < (m.order.length : Int) then
    match m.order[index.toNat]? with
    | some k => some (k, mapLookup m.data k, (mapLookup m.data k).isSome)
    | none => none
  else none

/-- Translation of `GetOrder` (src/orderedmap.go lines 107-113).  The Go
code returns a freshly copied slice with the same contents as the order. -/
def OrderedMap.GetOrder {α : Type} (m : OrderedMap α) : List String :=
  m.order

/-- Translation of `SetOrder` (src/orderedmap.go lines 118-126): reject the
new order unless `compareOrder` accepts it, otherwise `copy` it over the
current order slice. -/
def OrderedMap.SetOrder {α : Type} (m : OrderedMap α) (ord : List String) :
    Except String (OrderedMap α) :=
  if ¬ compareOrder m.order ord then
    Except.error "Provided order does not contain the same data as existing."
  else
    Except.ok { m with order := goCopy m.order ord }

/-- Translation of `IndexOf` (src/orderedmap.go lines 129-139). -/
def OrderedMap.IndexOf {α : Type} (m : OrderedMap α) (k : String) : Int :=
  indexOfLoop k m.order 0 (-1)

/-- Translation of `Delete` (src/orderedmap.go lines 142-153): look up the
index, delete from the map, and rebuild the order as
`tmp[:idx] ++ tmp[idx+1:]`.  When the key is absent, `idx = -1` and the Go
slice expression `tmp[:idx]` panics, modelled by `none`. -/
def OrderedMap.Delete {α : Type} (m : OrderedMap α) (k : String) : Option (OrderedMap α) :=
  if 0 ≤ m.IndexOf k then
    some { data := mapDelete m.data k
           order := m.order.take (m.IndexOf k).toNat ++ m.order.drop ((m.IndexOf k).toNat + 1) }
  else none

/-- Translation of `Count` (src/orderedmap.go lines 156-161). -/
def OrderedMap.Count {α : Type} (m : OrderedMap α) : Nat :=
  m.data.length

instance {ε α : Type} [DecidableEq ε] [DecidableEq α] : DecidableEq (Except ε α) := fun a b =>
  match a, b with
  | .ok x, .ok y => if h : x = y then isTrue (by rw [h]) else isFalse (by simp [h])
  | .error e, .error f => if h : e = f then isTrue (by rw [h]) else isFalse (by simp [h])
  | .ok _, .error _ => isFalse (by simp)
  | .error _, .ok _ => isFalse (by simp)

/-- The four mutating Store operations, for stating whole-run invariants. -/
inductive Op (α : Type) where
  | add (k : String) (v : α)
  | insert (p : Int) (k : String) (v : α)
  | setOrder (ord : List String)
  | delete (k : String)
deriving DecidableEq

/-- Result of running one operation: `none` when the Go code panics; calls
that merely return an error leave the map unchanged. -/
def applyOp {α : Type} (m : OrderedMap α) : Op α → Option (OrderedMap α)
  | .add k v => some (m.Add k v)
  | .insert p k v =>
      match m.Insert p k v with
      | some (Except.ok m₁) => some m₁
      | some (Except.error _) => some m
      | none => none
  | .setOrder ord =>
      match m.SetOrder ord with
      | Except.ok m₁ => some m₁
      | Except.error _ => some m
  | .delete k => m.Delete k

/-- Run a sequence of operations, stopping at the first panic. -/
def runFrom {α : Type} (m : OrderedMap α) : List (Op α) → Option (OrderedMap α)
  | [] => some m
  | op :: ops =>
      match applyOp m op with
      | some m₁ => runFrom m₁ ops
      | none => none

/-- Freshness of one operation: `Add` and `Insert` are only applied with a
key that is not already present. -/
def freshOp {α : Type} (m : OrderedMap α) : Op α → Bool
  | .add k _ => (m.GetKey k).isNone
  | .insert _ k _ => (m.GetKey k).isNone
  | .setOrder _ => true
  | .delete _ => true

/-- Freshness of a whole run: every `Add`/`Insert` along the run uses a key
that is absent at the moment of the call. -/
def freshRun {α : Type} (m : OrderedMap α) : List (Op α) → Bool
  | [] => true
  | op :: ops =>
      freshOp m op &&
      (match applyOp m op with
       | some m₁ => freshRun m₁ ops
       | none => true)

/-- Well-formedness of a map, as the spec states it: the data keys are
unique, the order is duplicate-free, and the order and the data hold the
same key set. -/
def OrderedMap.WF {α : Type} (m : OrderedMap α) : Prop :=
  (dataKeys m.data).Nodup ∧ m.order.Nodup ∧
    (∀ k ∈ m.order, k ∈ dataKeys m.data) ∧ (∀ k ∈ dataKeys m.data, k ∈ m.order)

instance {α : Type} [DecidableEq α] (m : OrderedMap α) : Decidable m.WF := by
  unfold OrderedMap.WF
  infer_instance

/-! ### Lemmas about the map model -/

theorem dataKeys_nil {α : Type} : dataKeys ([] : List (String × α)) = [] := rfl

theorem dataKeys_cons {α : Type} (k : String) (v : α) (rest : List (String × α)) :
    dataKeys ((k, v) :: rest) = k :: dataKeys rest := rfl

theorem mapLookup_eq_none_iff {α : Type} (d : List (String × α)) (k : String) :
    mapLookup d k = none ↔ k ∉ dataKeys d := by
  induction d with
  | nil => simp [mapLookup, dataKeys_nil]
  | cons p rest ih =>
    obtain ⟨k₁, v⟩ := p
    by_cases h : k₁ = k
    · subst h
      simp [mapLookup, dataKeys_cons]
    · have h₂ : ¬ k = k₁ := fun he => h he.symm
      simp [mapLookup, dataKeys_cons, h, h₂, ih]

theorem mapLookup_isSome_iff {α : Type} (d : List (String × α)) (k : String) :
    (mapLookup d k).isSome = true ↔ k ∈ dataKeys d := by
  rcases h : mapLookup d k with _ | v
  · simp [(mapLookup_eq_none_iff d k).mp h]
  · simp only [Option.isSome_some, true_iff]
    by_contra hk
    rw [← mapLookup_eq_none_iff d k] at hk
    rw [h] at hk
    cases hk

theorem dataKeys_mapInsert_of_mem {α : Type} (d : List (String × α)) (k : String) (v : α)
    (h : k ∈ dataKeys d) : dataKeys (mapInsert d k v) = dataKeys d := by
  induction d with
  | nil => simp [dataKeys_nil] at h
  | cons p rest ih =>
    obtain ⟨k₁, v₁⟩ := p
    by_cases hk : k₁ = k
    · subst hk
      simp [mapInsert, dataKeys_cons]
    · rw [dataKeys_cons] at h
      have hmem : k ∈ dataKeys rest := by
        rcases List.mem_cons.mp h with h₁ | h₁
        · exact absurd h₁.symm hk
        · exact h₁
      simp [mapInsert, hk, dataKeys_cons, ih hmem]

theorem dataKeys_mapInsert_of_not_mem {α : Type} (d : List (String × α)) (k : String) (v : α)
    (h : k ∉ dataKeys d) : dataKeys (mapInsert d k v) = dataKeys d ++ [k] := by
  induction d with
  | nil => simp [mapInsert, dataKeys_nil, dataKeys_cons]
  | cons p rest ih =>
    obtain ⟨k₁, v₁⟩ := p
    rw [dataKeys_cons] at h
    simp only [List.mem_cons, not_or] at h
    have hk : ¬ k₁ = k := fun he => h.1 he.symm
    simp [mapInsert, hk, dataKeys_cons, ih h.2]

theorem length_mapInsert_of_mem {α : Type} (d : List (String × α)) (k : String) (v : α)
    (h : k ∈ dataKeys d) : (mapInsert d k v).length = d.length := by
  have h1 : (dataKeys (mapInsert d k v)).length = (dataKeys d).length := by
    rw [dataKeys_mapInsert_of_mem d k v h]
  simpa [dataKeys] using h1

theorem length_mapInsert_of_not_mem {α : Type} (d : List (String × α)) (k : String) (v : α)
    (h : k ∉ dataKeys d) : (mapInsert d k v).length = d.length + 1 := by
  have h1 : (dataKeys (mapInsert d k v)).length = (dataKeys d ++ [k]).length := by
    rw [dataKeys_mapInsert_of_not_mem d k v h]
  simpa [dataKeys] using h1

theorem mapLookup_mapInsert_self {α : Type} (d : List (String × α)) (k : String) (v : α) :
    mapLookup (mapInsert d k v) k = some v := by
  induction d with
  | nil => simp [mapInsert, mapLookup]
  | cons p rest ih =>
    obtain ⟨k₁, v₁⟩ := p
    by_cases hk : k₁ = k <;> simp [mapInsert, mapLookup, hk, ih]

theorem mapLookup_mapInsert_ne {α : Type} (d : List (String × α)) (k k₁ : String) (v : α)
    (h : k₁ ≠ k) : mapLookup (mapInsert d k v) k₁ = mapLookup d k₁ := by
  have h₂ : ¬ k = k₁ := fun he => h he.symm
  induction d with
  | nil => simp [mapInsert, mapLookup, h₂]
  | cons p rest ih =>
    obtain ⟨k₂, v₂⟩ := p
    by_cases hk : k₂ = k
    · subst hk
      simp [mapInsert, mapLookup, h₂]
    · by_cases hk₁ : k₂ = k₁ <;> simp [mapInsert, mapLookup, hk, hk₁, h, ih]

theorem dataKeys_mapDelete {α : Type} (d : List (String × α)) (k : String) :
    dataKeys (mapDelete d k) = (dataKeys d).filter (fun x => x ≠ k) := by
  induction d with
  | nil => simp [mapDelete, dataKeys]
  | cons p rest ih =>
    obtain ⟨k₁, v₁⟩ := p
    by_cases hk : k₁ = k <;>
      simp [mapDelete, dataKeys, List.filter, hk] at ih ⊢ <;> exact ih

theorem mem_dataKeys_mapDelete {α : Type} (d : List (String × α)) (k x : String) :
    x ∈ dataKeys (mapDelete d k) ↔ x ∈ dataKeys d ∧ x ≠ k := by
  rw [dataKeys_mapDelete]
  simp [List.mem_filter]

/-! ### Lemmas about the IndexOf loop -/

theorem indexOfLoop_of_not_mem (k : String) (l : List String) (h : k ∉ l) :
    ∀ i acc, indexOfLoop k l i acc = acc := by
  induction l with
  | nil => intro i acc; rfl
  | cons x xs ih =>
    intro i acc
    simp at h
    push_neg at h
    have hx : x ≠ k := fun he => h.1 he.symm
    simp [indexOfLoop, hx]
    exact ih h.2 (i + 1) acc

theorem indexOfLoop_of_mem (k : String) (l : List String) (h : k ∈ l) :
    ∀ i acc, ∃ j : Nat, indexOfLoop k l i acc = ((i + j : Nat) : Int) ∧
      l[j]? = some k ∧ ∀ j₁, j < j₁ → l[j₁]? ≠ some k := by
  induction l with
  | nil => simp at h
  | cons x xs ih =>
    intro i acc
    by_cases hxs : k ∈ xs
    · obtain ⟨j, hj1, hj2, hj3⟩ := ih hxs (i + 1) (if x = k then (i : Int) else acc)
      refine ⟨j + 1, ?_, ?_, ?_⟩
      · rw [indexOfLoop, hj1]; push_cast; ring
      · simpa using hj2
      · intro j₁ hj₁
        match j₁, hj₁ with
        | j₂ + 1, hj₁ =>
          simpa using hj3 j₂ (by omega)
    · have hx : x = k := by
        rcases List.mem_cons.mp h with h1 | h1
        · exact h1.symm
        · exact absurd h1 hxs
      refine ⟨0, ?_, by simp [hx], ?_⟩
      · rw [indexOfLoop, if_pos hx, indexOfLoop_of_not_mem k xs hxs]
        simp
      · intro j₁ hj₁
        match j₁, hj₁ with
        | j₂ + 1, _ =>
          simp only [List.getElem?_cons_succ]
          intro hc
          obtain ⟨hlt, he⟩ := List.getElem?_eq_some.mp hc
          exact hxs (he ▸ List.getElem_mem hlt)

/-! ### The lexicographic string order is total, transitive and antisymmetric -/

theorem charListLe_total : ∀ (x y : List Char), charListLe x y = true ∨ charListLe y x = true
  | [], _ => Or.inl rfl
  | _ :: _, [] => Or.inr rfl
  | a :: as, b :: bs => by
    by_cases hab : a < b
    · left
      simp [charListLe, hab]
    · by_cases hba : b < a
      · right
        simp [charListLe, hba]
      · rcases charListLe_total as bs with h | h
        · left
          simp [charListLe, hab, hba, h]
        · right
          simp [charListLe, hab, hba, h]

theorem charListLe_trans : ∀ (x y z : List Char),
    charListLe x y = true → charListLe y z = true → charListLe x z = true
  | [], _, _, _, _ => rfl
  | _ :: _, [], _, h, _ => by simp [charListLe] at h
  | _ :: _, _ :: _, [], _, h => by simp [charListLe] at h
  | a :: as, b :: bs, c :: cs, h₁, h₂ => by
    by_cases hab : a < b
    · by_cases hbc : b < c
      · simp [charListLe, lt_trans hab hbc]
      · by_cases hcb : c < b
        · simp [charListLe, hbc, hcb] at h₂
        · have hbc₂ : b = c := le_antisymm (not_lt.mp hcb) (not_lt.mp hbc)
          subst hbc₂
          simp [charListLe, hab]
    · by_cases hba : b < a
      · simp [charListLe, hab, hba] at h₁
      · have hab₂ : a = b := le_antisymm (not_lt.mp hba) (not_lt.mp hab)
        subst hab₂
        by_cases hac : a < c
        · simp [charListLe, hac]
        · by_cases hca : c < a
          · simp [charListLe, hac, hca] at h₂
          · simp [charListLe, hab, hac, hca] at h₁ h₂ ⊢
            exact charListLe_trans as bs cs h₁ h₂

theorem charListLe_antisymm : ∀ (x y : List Char),
    charListLe x y = true → charListLe y x = true → x = y
  | [], [], _, _ => rfl
  | [], _ :: _, _, h => by simp [charListLe] at h
  | _ :: _, [], h, _ => by simp [charListLe] at h
  | a :: as, b :: bs, h₁, h₂ => by
    by_cases hab : a < b
    · simp [charListLe, hab, lt_asymm hab] at h₂
    · by_cases hba : b < a
      · simp [charListLe, hab, hba] at h₁
      · have hab₂ : a = b := le_antisymm (not_lt.mp hba) (not_lt.mp hab)
        subst hab₂
        simp [charListLe, hab] at h₁ h₂
        rw [charListLe_antisymm as bs h₁ h₂]

instance : IsTotal String strLe :=
  ⟨fun a b => charListLe_total a.data b.data⟩

instance : IsTrans String strLe :=
  ⟨fun a b c => charListLe_trans a.data b.data c.data⟩

instance : IsAntisymm String strLe :=
  ⟨fun a b h₁ h₂ => congrArg String.mk (charListLe_antisymm a.data b.data h₁ h₂)⟩

/-! ### compareOrder decides permutation equivalence -/

theorem sortStrings_perm (l : List String) : List.Perm (sortStrings l) l :=
  List.perm_insertionSort strLe l

theorem sortStrings_sorted (l : List String) : List.Sorted strLe (sortStrings l) :=
  List.sorted_insertionSort strLe l

theorem compareOrder_eq_true_iff (f s : List String) :
    compareOrder f s = true ↔ List.Perm f s := by
  by_cases hl : f.length = s.length
  · have h₁ : compareOrder f s = decide (sortStrings f = sortStrings s) := by
      unfold compareOrder
      rw [if_neg (by simp [hl])]
    rw [h₁, decide_eq_true_eq]
    constructor
    · intro hs
      have h₂ : List.Perm f (sortStrings f) := (sortStrings_perm f).symm
      rw [hs] at h₂
      exact h₂.trans (sortStrings_perm s)
    · intro hp
      exact List.eq_of_perm_of_sorted
        ((sortStrings_perm f).trans (hp.trans (sortStrings_perm s).symm))
        (sortStrings_sorted f) (sortStrings_sorted s)
  · have h₁ : compareOrder f s = false := by
      unfold compareOrder
      rw [if_pos hl]
    rw [h₁]
    constructor
    · intro h
      cases h
    · intro hp
      exact absurd hp.length_eq hl

/-! ### goCopy -/

theorem goCopy_of_length_eq (dst src : List String) (h : dst.length = src.length) :
    goCopy dst src = src := by
  unfold goCopy
  rw [h, List.take_length]
  rw [← h, List.drop_length, List.append_nil]

/-! ### IndexOf -/

theorem IndexOf_of_not_mem {α : Type} (m : OrderedMap α) (k : String) (h : k ∉ m.order) :
    m.IndexOf k = -1 :=
  indexOfLoop_of_not_mem k m.order h 0 (-1)

theorem IndexOf_spec_of_mem {α : Type} (m : OrderedMap α) (k : String) (h : k ∈ m.order) :
    0 ≤ m.IndexOf k ∧ m.order[(m.IndexOf k).toNat]? = some k ∧
      ∀ j, (m.IndexOf k).toNat < j → m.order[j]? ≠ some k := by
  obtain ⟨j, h₁, h₂, h₃⟩ := indexOfLoop_of_mem k m.order h 0 (-1)
  have he : m.IndexOf k = (j : Int) := by simpa [OrderedMap.IndexOf] using h₁
  rw [he]
  simp only [Int.toNat_natCast]
  exact ⟨Int.natCast_nonneg j, h₂, h₃⟩

/-! ### Well-formedness lemmas -/

theorem OrderedMap.WF.nodupKeys {α : Type} {m : OrderedMap α} (h : m.WF) :
    (dataKeys m.data).Nodup := h.1

theorem OrderedMap.WF.nodupOrder {α : Type} {m : OrderedMap α} (h : m.WF) :
    m.order.Nodup := h.2.1

theorem OrderedMap.WF.mem_order_iff {α : Type} {m : OrderedMap α} (h : m.WF) (k : String) :
    k ∈ m.order ↔ k ∈ dataKeys m.data :=
  ⟨h.2.2.1 k, h.2.2.2 k⟩

theorem OrderedMap.WF.order_perm {α : Type} {m : OrderedMap α} (h : m.WF) :
    List.Perm m.order (dataKeys m.data) :=
  (List.perm_ext_iff_of_nodup h.nodupOrder h.nodupKeys).mpr fun k => h.mem_order_iff k

theorem OrderedMap.WF.length_order_eq {α : Type} {m : OrderedMap α} (h : m.WF) :
    m.order.length = m.data.length := by
  have h₁ := h.order_perm.length_eq
  simpa [dataKeys] using h₁

theorem OrderedMap.WF.count_eq {α : Type} {m : OrderedMap α} (h : m.WF) :
    m.Count = m.GetOrder.length := by
  rw [OrderedMap.Count, OrderedMap.GetOrder, h.length_order_eq]

theorem WF_New (α : Type) : (OrderedMap.New α).WF := by
  refine ⟨?_, ?_, ?_, ?_⟩ <;> simp [OrderedMap.New, dataKeys_nil]

theorem WF_Add {α : Type} {m : OrderedMap α} (h : m.WF) {k : String}
    (hk : m.GetKey k = none) (v : α) : (m.Add k v).WF := by
  have hk₂ : k ∉ dataKeys m.data := (mapLookup_eq_none_iff m.data k).mp hk
  have hk₃ : k ∉ m.order := fun hmem => hk₂ ((h.mem_order_iff k).mp hmem)
  have hkeys : dataKeys (m.Add k v).data = dataKeys m.data ++ [k] := by
    rw [OrderedMap.Add]
    exact dataKeys_mapInsert_of_not_mem m.data k v hk₂
  refine ⟨?_, ?_, ?_, ?_⟩
  · rw [hkeys]
    simp [List.nodup_append, h.nodupKeys, hk₂]
  · show (m.order ++ [k]).Nodup
    simp [List.nodup_append, h.nodupOrder, hk₃]
  · intro x hx
    rw [hkeys]
    rcases List.mem_append.mp hx with h₁ | h₁
    · exact List.mem_append.mpr (Or.inl ((h.mem_order_iff x).mp h₁))
    · exact List.mem_append.mpr (Or.inr h₁)
  · intro x hx
    rw [hkeys] at hx
    rcases List.mem_append.mp hx with h₁ | h₁
    · exact List.mem_append.mpr (Or.inl ((h.mem_order_iff x).mpr h₁))
    · exact List.mem_append.mpr (Or.inr h₁)

theorem Insert_ok_elim {α : Type} {m m₁ : OrderedMap α} {p : Int} {k : String} {v : α}
    (hr : m.Insert p k v = some (Except.ok m₁)) :
    ¬ p ≥ (m.data.length : Int) ∧ ¬ p < 0 ∧
      m₁.data = mapInsert m.data k v ∧
      m₁.order = m.order.take p.toNat ++ k :: m.order.drop p.toNat := by
  unfold OrderedMap.Insert at hr
  by_cases h₁ : p ≥ (m.data.length : Int)
  · rw [if_pos h₁] at hr
    cases hr
  · rw [if_neg h₁] at hr
    by_cases h₂ : p < 0
    · rw [if_pos h₂] at hr
      cases hr
    · rw [if_neg h₂] at hr
      by_cases h₃ : p.toNat ≤ m.order.length
      · rw [if_pos h₃] at hr
        injection hr with hr₁
        injection hr₁ with hr₂
        exact ⟨h₁, h₂, congrArg OrderedMap.data hr₂.symm, congrArg OrderedMap.order hr₂.symm⟩
      · rw [if_neg h₃] at hr
        cases hr

theorem WF_Insert_ok {α : Type} {m m₁ : OrderedMap α} {p : Int} {k : String} {v : α}
    (h : m.WF) (hk : m.GetKey k = none) (hr : m.Insert p k v = some (Except.ok m₁)) :
    m₁.WF := by
  obtain ⟨_, _, hdata, horder⟩ := Insert_ok_elim hr
  have hk₂ : k ∉ dataKeys m.data := (mapLookup_eq_none_iff m.data k).mp hk
  have hk₃ : k ∉ m.order := fun hmem => hk₂ ((h.mem_order_iff k).mp hmem)
  have hkeys : dataKeys m₁.data = dataKeys m.data ++ [k] := by
    rw [hdata]
    exact dataKeys_mapInsert_of_not_mem m.data k v hk₂
  have hperm : List.Perm m₁.order (k :: m.order) := by
    rw [horder]
    have h₂ := @List.perm_middle String k (m.order.take p.toNat) (m.order.drop p.toNat)
    rw [List.take_append_drop] at h₂
    exact h₂
  have hnodup : (k :: m.order).Nodup := List.nodup_cons.mpr ⟨hk₃, h.nodupOrder⟩
  refine ⟨?_, ?_, ?_, ?_⟩
  · rw [hkeys]
    simp [List.nodup_append, h.nodupKeys, hk₂]
  · exact hperm.nodup_iff.mpr hnodup
  · intro x hx
    rw [hkeys]
    have hx₂ : x ∈ k :: m.order := hperm.mem_iff.mp hx
    rcases List.mem_cons.mp hx₂ with h₁ | h₁
    · exact List.mem_append.mpr (Or.inr (by simp [h₁]))
    · exact List.mem_append.mpr (Or.inl ((h.mem_order_iff x).mp h₁))
  · intro x hx
    rw [hkeys] at hx
    apply hperm.mem_iff.mpr
    rcases List.mem_append.mp hx with h₁ | h₁
    · exact List.mem_cons.mpr (Or.inr ((h.mem_order_iff x).mpr h₁))
    · simp at h₁
      exact List.mem_cons.mpr (Or.inl h₁)

theorem SetOrder_ok_elim {α : Type} {m m₁ : OrderedMap α} {ord : List String}
    (hr : m.SetOrder ord = Except.ok m₁) :
    List.Perm m.order ord ∧ m₁.data = m.data ∧ m₁.order = ord := by
  unfold OrderedMap.SetOrder at hr
  by_cases hc : compareOrder m.order ord = true
  · have hp : List.Perm m.order ord := (compareOrder_eq_true_iff m.order ord).mp hc
    rw [if_neg (by simp [hc])] at hr
    injection hr with hr₁
    refine ⟨hp, ?_, ?_⟩
    · rw [← hr₁]
    · rw [← hr₁]
      exact goCopy_of_length_eq m.order ord hp.length_eq
  · rw [if_pos (by simpa using hc)] at hr
    cases hr

theorem SetOrder_eq_ok {α : Type} (m : OrderedMap α) (ord : List String)
    (hp : List.Perm m.order ord) :
    m.SetOrder ord = Except.ok { m with order := ord } := by
  unfold OrderedMap.SetOrder
  rw [if_neg (by simp [(compareOrder_eq_true_iff m.order ord).mpr hp])]
  rw [goCopy_of_length_eq m.order ord hp.length_eq]

theorem SetOrder_eq_error {α : Type} (m : OrderedMap α) (ord : List String)
    (hp : ¬ List.Perm m.order ord) :
    m.SetOrder ord = Except.error "Provided order does not contain the same data as existing." := by
  unfold OrderedMap.SetOrder
  rw [if_pos]
  intro hc
  exact hp ((compareOrder_eq_true_iff m.order ord).mp hc)

theorem WF_SetOrder_ok {α : Type} {m m₁ : OrderedMap α} {ord : List String}
    (h : m.WF) (hr : m.SetOrder ord = Except.ok m₁) : m₁.WF := by
  obtain ⟨hp, hdata, horder⟩ := SetOrder_ok_elim hr
  refine ⟨?_, ?_, ?_, ?_⟩
  · rw [hdata]
    exact h.nodupKeys
  · rw [horder]
    exact hp.nodup_iff.mp h.nodupOrder
  · intro x hx
    rw [hdata]
    rw [horder] at hx
    exact (h.mem_order_iff x).mp (hp.mem_iff.mpr hx)
  · intro x hx
    rw [hdata] at hx
    rw [horder]
    exact hp.mem_iff.mp ((h.mem_order_iff x).mpr hx)

theorem Delete_some_elim {α : Type} {m m₁ : OrderedMap α} {k : String}
    (hr : m.Delete k = some m₁) :
    0 ≤ m.IndexOf k ∧ m₁.data = mapDelete m.data k ∧
      m₁.order = m.order.take (m.IndexOf k).toNat ++ m.order.drop ((m.IndexOf k).toNat + 1) := by
  unfold OrderedMap.Delete at hr
  by_cases h₀ : 0 ≤ m.IndexOf k
  · rw [if_pos h₀] at hr
    injection hr with hr₁
    exact ⟨h₀, congrArg OrderedMap.data hr₁.symm, congrArg OrderedMap.order hr₁.symm⟩
  · rw [if_neg h₀] at hr
    cases hr

theorem Delete_mem_of_some {α : Type} {m m₁ : OrderedMap α} {k : String}
    (hr : m.Delete k = some m₁) : k ∈ m.order := by
  obtain ⟨h₀, _, _⟩ := Delete_some_elim hr
  by_contra hmem
  rw [IndexOf_of_not_mem m k hmem] at h₀
  exact absurd h₀ (by decide)

theorem Delete_order_perm {α : Type} {m m₁ : OrderedMap α} {k : String}
    (hr : m.Delete k = some m₁) : List.Perm m.order (k :: m₁.order) := by
  obtain ⟨h₀, _, horder⟩ := Delete_some_elim hr
  have hmem : k ∈ m.order := Delete_mem_of_some hr
  obtain ⟨_, hget, _⟩ := IndexOf_spec_of_mem m k hmem
  obtain ⟨hlt, hgete⟩ := List.getElem?_eq_some.mp hget
  have hsplit : m.order =
      m.order.take (m.IndexOf k).toNat ++ k :: m.order.drop ((m.IndexOf k).toNat + 1) := by
    conv_lhs => rw [← List.take_append_drop (m.IndexOf k).toNat m.order]
    rw [List.drop_eq_getElem_cons hlt, hgete]
  rw [horder]
  conv_lhs => rw [hsplit]
  exact @List.perm_middle String k
    (m.order.take (m.IndexOf k).toNat) (m.order.drop ((m.IndexOf k).toNat + 1))

theorem WF_Delete_some {α : Type} {m m₁ : OrderedMap α} {k : String}
    (h : m.WF) (hr : m.Delete k = some m₁) : m₁.WF := by
  obtain ⟨_, hdata, _⟩ := Delete_some_elim hr
  have hperm := Delete_order_perm hr
  have hnodup : (k :: m₁.order).Nodup := hperm.nodup_iff.mp h.nodupOrder
  have hknot : k ∉ m₁.order := (List.nodup_cons.mp hnodup).1
  refine ⟨?_, ?_, ?_, ?_⟩
  · rw [hdata, dataKeys_mapDelete]
    exact h.nodupKeys.filter _
  · exact (List.nodup_cons.mp hnodup).2
  · intro x hx
    rw [hdata, mem_dataKeys_mapDelete]
    have hx₂ : x ∈ m.order := hperm.mem_iff.mpr (List.mem_cons.mpr (Or.inr hx))
    refine ⟨(h.mem_order_iff x).mp hx₂, ?_⟩
    intro he
    exact hknot (he ▸ hx)
  · intro x hx
    rw [hdata, mem_dataKeys_mapDelete] at hx
    have hx₂ : x ∈ m.order := (h.mem_order_iff x).mpr hx.1
    rcases List.mem_cons.mp (hperm.mem_iff.mp hx₂) with h₁ | h₁
    · exact absurd h₁ hx.2
    · exact h₁

theorem WF_applyOp {α : Type} {m m₁ : OrderedMap α} {op : Op α} (h : m.WF)
    (hf : freshOp m op = true) (hr : applyOp m op = some m₁) : m₁.WF := by
  cases op with
  | add k v =>
    have hk : m.GetKey k = none := by
      simpa [freshOp, Option.isNone_iff_eq_none] using hf
    simp only [applyOp] at hr
    injection hr with hr₁
    exact hr₁ ▸ WF_Add h hk v
  | insert p k v =>
    have hk : m.GetKey k = none := by
      simpa [freshOp, Option.isNone_iff_eq_none] using hf
    rcases hres : m.Insert p k v with _ | res
    · simp only [applyOp, hres] at hr
      cases hr
    · rcases res with e | m₂
      · simp only [applyOp, hres] at hr
        injection hr with hr₁
        exact hr₁ ▸ h
      · simp only [applyOp, hres] at hr
        injection hr with hr₁
        exact hr₁ ▸ WF_Insert_ok h hk hres
  | setOrder ord =>
    rcases hres : m.SetOrder ord with e | m₂
    · simp only [applyOp, hres] at hr
      injection hr with hr₁
      exact hr₁ ▸ h
    · simp only [applyOp, hres] at hr
      injection hr with hr₁
      exact hr₁ ▸ WF_SetOrder_ok h hres
  | delete k =>
    simp only [applyOp] at hr
    exact WF_Delete_some h hr

theorem WF_runFrom {α : Type} : ∀ (ops : List (Op α)) (m m₁ : OrderedMap α),
    m.WF → freshRun m ops = true → runFrom m ops = some m₁ → m₁.WF
  | [], m, m₁, h, _, hr => by
    simp only [runFrom] at hr
    injection hr with hr₁
    exact hr₁ ▸ h
  | op :: ops, m, m₁, h, hf, hr => by
    simp only [freshRun] at hf
    simp only [runFrom] at hr
    rcases hap : applyOp m op with _ | m₂
    · rw [hap] at hr
      cases hr
    · simp only [hap] at hr hf
      simp only [Bool.and_eq_true] at hf
      exact WF_runFrom ops m₂ m₁ (WF_applyOp h hf.1 hap) hf.2 hr

/-! ### Example stores used by witnesses -/

/-- Example store built by Add a 1; Add b 2. -/
def exStoreAB : OrderedMap Nat :=
  ((OrderedMap.New Nat).Add "a" 1).Add "b" 2

/-- Example store built by Add a 1; Add b 2; Add a 3, whose order holds the
key a twice. -/
def exStoreDup : OrderedMap Nat :=
  (((OrderedMap.New Nat).Add "a" 1).Add "b" 2).Add "a" 3

/-! ### Claim C1 -/

/-- Claim C1 as stated is false at a concrete input: running the operation
sequence Add a 1; Add a 2 from a new empty Store yields Count() = 1 while
GetOrder() = [a, a] has length 2 (Add on a key already present appends the
key to the order a second time without growing the data map). -/
theorem c1_counterexample :
    runFrom (OrderedMap.New Nat) [Op.add "a" 1, Op.add "a" 2] =
      some { data := [("a", 2)], order := ["a", "a"] } ∧
    ¬ (OrderedMap.Count { data := [("a", (2 : Nat))], order := ["a", "a"] } =
        (OrderedMap.GetOrder { data := [("a", (2 : Nat))], order := ["a", "a"] }).length) := by
  decide

/-- Claim C1 (amended): for every sequence of Store operations started from
a new empty Store in which Add and Insert are only applied with keys not
currently present, and which completes without a run-time panic, Count()
equals the length of GetOrder() and the key set of GetOrder() equals the
set of keys for which GetByKey reports found = true. -/
theorem c1_invariant_of_freshRun {α : Type} (ops : List (Op α)) (m : OrderedMap α)
    (hf : freshRun (OrderedMap.New α) ops = true)
    (hr : runFrom (OrderedMap.New α) ops = some m) :
    m.Count = m.GetOrder.length ∧
      (∀ k ∈ m.GetOrder, (m.GetKey k).isSome = true) ∧
      (∀ k, (m.GetKey k).isSome = true → k ∈ m.GetOrder) := by
  have hwf := WF_runFrom ops (OrderedMap.New α) m (WF_New α) hf hr
  refine ⟨hwf.count_eq, ?_, ?_⟩
  · intro k hk
    exact (mapLookup_isSome_iff m.data k).mpr ((hwf.mem_order_iff k).mp hk)
  · intro k hk
    exact (hwf.mem_order_iff k).mpr ((mapLookup_isSome_iff m.data k).mp hk)

/-- Witness for C1: a concrete fresh run (Add a 1; Add b 2; Delete a)
satisfies the hypotheses, and the invariant conclusion holds on its result. -/
theorem c1_invariant_witness :
    freshRun (OrderedMap.New Nat) [Op.add "a" 1, Op.add "b" 2, Op.delete "a"] = true ∧
    runFrom (OrderedMap.New Nat) [Op.add "a" 1, Op.add "b" 2, Op.delete "a"] =
      some { data := [("b", 2)], order := ["b"] } ∧
    OrderedMap.Count { data := [("b", (2 : Nat))], order := ["b"] } =
      (OrderedMap.GetOrder { data := [("b", (2 : Nat))], order := ["b"] }).length :=
  ⟨by decide, by decide,
    (c1_invariant_of_freshRun [Op.add "a" 1, Op.add "b" 2, Op.delete "a"]
      { data := [("b", 2)], order := ["b"] } (by decide) (by decide)).1⟩

/-! ### Claim C2 -/

/-- Claim C2 as stated is false at a concrete input: on a Store containing
key a, Add a 2 changes GetOrder() from [a] to [a, a] — the order does not
stay unchanged. -/
theorem c2_counterexample :
    OrderedMap.GetOrder ((OrderedMap.New Nat).Add "a" 1) = ["a"] ∧
    OrderedMap.GetOrder (((OrderedMap.New Nat).Add "a" 1).Add "a" 2) = ["a", "a"] ∧
    ¬ (OrderedMap.GetOrder (((OrderedMap.New Nat).Add "a" 1).Add "a" 2) =
        OrderedMap.GetOrder ((OrderedMap.New Nat).Add "a" 1)) := by
  decide

/-- Claim C2 (amended): when key k is already present, Add(k, v) overwrites
the mapped value (GetByKey(k) returns v) and leaves Count() unchanged, but
it does not leave the order unchanged: it appends k at the end again, so
GetOrder() grows by one duplicate entry. -/
theorem c2_add_existing_key {α : Type} (m : OrderedMap α) (k : String) (v : α)
    (h : (m.GetKey k).isSome = true) :
    (m.Add k v).GetKey k = some v ∧
    (m.Add k v).GetOrder = m.GetOrder ++ [k] ∧
    (m.Add k v).Count = m.Count := by
  refine ⟨mapLookup_mapInsert_self m.data k v, rfl, ?_⟩
  exact length_mapInsert_of_mem m.data k v ((mapLookup_isSome_iff m.data k).mp h)

/-- Witness for C2: overwriting the key a in a concrete store. -/
theorem c2_add_existing_key_witness :
    (OrderedMap.GetKey ((OrderedMap.New Nat).Add "a" 1) "a").isSome = true ∧
    (((OrderedMap.New Nat).Add "a" 1).Add "a" 2).GetKey "a" = some 2 ∧
    (((OrderedMap.New Nat).Add "a" 1).Add "a" 2).GetOrder =
      ((OrderedMap.New Nat).Add "a" 1).GetOrder ++ ["a"] ∧
    (((OrderedMap.New Nat).Add "a" 1).Add "a" 2).Count =
      ((OrderedMap.New Nat).Add "a" 1).Count :=
  ⟨by decide, c2_add_existing_key ((OrderedMap.New Nat).Add "a" 1) "a" 2 (by decide)⟩

/-! ### Claim C3 -/

/-- Claim C3 as stated is false at a concrete input: on the empty Store
(size n = 0), Insert(0, a, 1) — inserting at the current size — does not
succeed as the claim requires, but fails with the range error, because the
code rejects every position ≥ len(data). -/
theorem c3_counterexample :
    (OrderedMap.New Nat).Count = 0 ∧
    (OrderedMap.New Nat).Insert 0 "a" 1 =
      some (Except.error "Position is larger than the current map size.") := by
  decide

/-- Claim C3 (amended): on a well-formed Store of size n, Insert(p, k, v)
never panics and fails with a range error exactly when p < 0 or p ≥ n; in
particular Insert(n, ...) — inserting at the current size — fails rather
than behaving like Add, and Insert(n+1, ...) and Insert(-1, ...) fail as
well. -/
theorem c3_insert_range {α : Type} (m : OrderedMap α) (h : m.WF) (p : Int)
    (k : String) (v : α) :
    (m.Insert p k v).isSome = true ∧
    ((∃ e, m.Insert p k v = some (Except.error e)) ↔ p < 0 ∨ (m.Count : Int) ≤ p) := by
  have hlen : m.order.length = m.data.length := h.length_order_eq
  by_cases h₁ : p ≥ (m.data.length : Int)
  · have hres : m.Insert p k v =
        some (Except.error "Position is larger than the current map size.") := by
      unfold OrderedMap.Insert
      rw [if_pos h₁]
    refine ⟨by rw [hres]; rfl, ?_, fun _ => ⟨_, hres⟩⟩
    intro _
    right
    exact h₁
  · rw [ge_iff_le, not_le] at h₁
    by_cases h₂ : p < 0
    · have hres : m.Insert p k v = some (Except.error "Position is less than 0.") := by
        unfold OrderedMap.Insert
        rw [if_neg (by rw [ge_iff_le, not_le]; exact h₁), if_pos h₂]
      refine ⟨by rw [hres]; rfl, ?_, fun _ => ⟨_, hres⟩⟩
      intro _
      left
      exact h₂
    · have h₃ : p.toNat ≤ m.order.length := by
        rw [hlen]
        exact Int.toNat_le.mpr (le_of_lt h₁)
      have hres : m.Insert p k v = some (Except.ok
          { data := mapInsert m.data k v
            order := m.order.take p.toNat ++ k :: m.order.drop p.toNat }) := by
        unfold OrderedMap.Insert
        rw [if_neg (by rw [ge_iff_le, not_le]; exact h₁), if_neg h₂, if_pos h₃]
      refine ⟨by rw [hres]; rfl, ?_, ?_⟩
      · intro he
        obtain ⟨e, he⟩ := he
        rw [hres] at he
        injection he with he₁
        cases he₁
      · intro hor
        rcases hor with h₄ | h₄
        · exact absurd h₄ h₂
        · exact absurd h₁ (not_lt.mpr h₄)

/-- Witness for C3: on the concrete two-entry store, Insert at position 1
returns a result (no panic), and the error characterization applies. -/
theorem c3_insert_range_witness :
    exStoreAB.WF ∧ (exStoreAB.Insert 1 "c" 3).isSome = true :=
  ⟨by decide, (c3_insert_range exStoreAB (by decide) 1 "c" 3).1⟩

/-! ### Claim C4 -/

/-- Claim C4 (code bug in GetIndex): the Go code indexes the order slice
without any bound check, so an out-of-range index panics (modelled `none`)
instead of returning found = false: on the empty Store GetIndex 0 panics,
and on a one-entry Store GetIndex (-1) and GetIndex 1 panic. -/
theorem c4_getIndex_out_of_range_panics :
    (OrderedMap.New Nat).GetIndex 0 = none ∧
    ((OrderedMap.New Nat).Add "a" 1).GetIndex (-1) = none ∧
    ((OrderedMap.New Nat).Add "a" 1).GetIndex 1 = none ∧
    ((OrderedMap.New Nat).Add "a" 1).GetIndex 0 = some ("a", some 1, true) := by
  decide

/-! ### Claim C5 -/

/-- Claim C5 (code bug in Delete): deleting an absent key is not a no-op:
IndexOf returns -1 and the Go code then evaluates `tmp[:-1]`, which panics
(modelled `none`); deleting a present key does remove it from both the
mapping and the order. -/
theorem c5_delete_absent_panics :
    (OrderedMap.New Nat).Delete "a" = none ∧
    ((OrderedMap.New Nat).Add "b" 2).Delete "a" = none ∧
    ((OrderedMap.New Nat).Add "b" 2).Delete "b" = some { data := [], order := [] } := by
  decide

/-! ### Claim C6 -/

/-- Claim C6: on a well-formed Store, SetOrder(newOrder) succeeds exactly
when newOrder is a permutation of the current key set (no duplicates, same
length as Count, and the same set of keys as seen by GetByKey or listed by
GetOrder); on success the new order is installed verbatim and the data
mapping — hence Count and every GetByKey result — is unchanged, and on
failure the Store is untouched because the code returns before mutating
anything. -/
theorem c6_setOrder_permutation {α : Type} (m : OrderedMap α) (h : m.WF) (ord : List String) :
    ((∃ m₁, m.SetOrder ord = Except.ok m₁) ↔
      (ord.Nodup ∧ ord.length = m.Count ∧ (∀ k ∈ ord, (m.GetKey k).isSome = true) ∧
        (∀ k ∈ m.GetOrder, k ∈ ord))) ∧
    (∀ m₁, m.SetOrder ord = Except.ok m₁ →
      m₁.GetOrder = ord ∧ m₁.Count = m.Count ∧ ∀ k, m₁.GetKey k = m.GetKey k) := by
  have hiff : List.Perm m.order ord ↔
      (ord.Nodup ∧ ord.length = m.Count ∧ (∀ k ∈ ord, (m.GetKey k).isSome = true) ∧
        (∀ k ∈ m.GetOrder, k ∈ ord)) := by
    constructor
    · intro hp
      refine ⟨hp.nodup_iff.mp h.nodupOrder, ?_, ?_, ?_⟩
      · rw [← hp.length_eq]
        exact h.length_order_eq
      · intro k hk
        exact (mapLookup_isSome_iff m.data k).mpr
          ((h.mem_order_iff k).mp (hp.mem_iff.mpr hk))
      · intro k hk
        exact hp.mem_iff.mp hk
    · rintro ⟨hnd, _, hm₁, hm₂⟩
      refine (List.perm_ext_iff_of_nodup h.nodupOrder hnd).mpr ?_
      intro x
      constructor
      · exact fun hx => hm₂ x hx
      · intro hx
        exact (h.mem_order_iff x).mpr ((mapLookup_isSome_iff m.data x).mp (hm₁ x hx))
  constructor
  · constructor
    · rintro ⟨m₁, hr⟩
      exact hiff.mp (SetOrder_ok_elim hr).1
    · intro hrhs
      exact ⟨_, SetOrder_eq_ok m ord (hiff.mpr hrhs)⟩
  · intro m₁ hr
    obtain ⟨_, hdata, horder⟩ := SetOrder_ok_elim hr
    refine ⟨horder, ?_, ?_⟩
    · show m₁.data.length = m.data.length
      rw [hdata]
    · intro k
      show mapLookup m₁.data k = mapLookup m.data k
      rw [hdata]

/-- Witness for C6: reordering the concrete two-entry store to [b, a]
succeeds and installs exactly that order. -/
theorem c6_setOrder_permutation_witness :
    exStoreAB.WF ∧
    exStoreAB.SetOrder ["b", "a"] =
      Except.ok { data := [("a", 1), ("b", 2)], order := ["b", "a"] } ∧
    OrderedMap.GetOrder { data := [("a", (1 : Nat)), ("b", 2)], order := ["b", "a"] } =
      ["b", "a"] :=
  ⟨by decide, by decide,
    ((c6_setOrder_permutation exStoreAB (by decide) ["b", "a"]).2
      { data := [("a", 1), ("b", 2)], order := ["b", "a"] } (by decide)).1⟩

/-! ### Claim C7 -/

/-- Claim C7: for every Store — well-formed or not — the round trip
SetOrder(GetOrder()) succeeds and returns the Store completely unchanged,
so GetOrder(), Count() and every GetByKey result are as before. -/
theorem c7_setOrder_getOrder_roundtrip {α : Type} (m : OrderedMap α) :
    m.SetOrder m.GetOrder = Except.ok m :=
  SetOrder_eq_ok m m.order (List.Perm.refl m.order)

/-! ### Claim C10 -/

/-- Claim C10: IndexOf(k) returns -1 when k is absent from the order, and
otherwise returns the index of the last occurrence of k: the entry at the
returned index is k and no later index holds k (the scan does not stop at
the first match). -/
theorem c10_indexOf_last_occurrence {α : Type} (m : OrderedMap α) (k : String) :
    (k ∉ m.GetOrder → m.IndexOf k = -1) ∧
    (k ∈ m.GetOrder → 0 ≤ m.IndexOf k ∧
      m.GetOrder[(m.IndexOf k).toNat]? = some k ∧
      ∀ j, (m.IndexOf k).toNat < j → m.GetOrder[j]? ≠ some k) :=
  ⟨IndexOf_of_not_mem m k, IndexOf_spec_of_mem m k⟩

/-- Witness for C10: in the store whose order is [a, b, a], IndexOf a is
nonnegative and points at an occurrence of a (position 2, the last one). -/
theorem c10_indexOf_last_occurrence_witness :
    "a" ∈ exStoreDup.GetOrder ∧ 0 ≤ exStoreDup.IndexOf "a" ∧
    exStoreDup.GetOrder[(exStoreDup.IndexOf "a").toNat]? = some "a" :=
  ⟨by decide, ((c10_indexOf_last_occurrence exStoreDup "a").2 (by decide)).1,
    ((c10_indexOf_last_occurrence exStoreDup "a").2 (by decide)).2.1⟩
